import Mathlib

/-!
Verification of the ChangeDetector in `dev/dev-watch.py`.

The script polls a directory tree, builds a snapshot mapping each watched
file's relative path to an MD5 content fingerprint (`None` when the file
cannot be read), diffs consecutive snapshots, and prints reload
instructions when something changed.

The embedding models:
  * a directory state as a list of `FileEntry` (path components plus an
    optional byte content, `none` meaning the file is unreadable);
  * a Python `dict` as an association list built by `dictInsert`
    (overwrite in place, append when fresh), iterated in insertion order;
  * the MD5 hex digest as an arbitrary function `digest : List Nat → String`
    over the raw bytes — every claim holds for each such function;
  * the watch loop as a step function over a stream of events
    (a poll tick carrying the directory state, or an interrupt signal),
    following the cooperative-cancellation description of the design.
-/

namespace DevWatch

/-- One file of the directory state: the directory components of its path
relative to the watch root, its filename, and its byte content
(`none` when any attempt to read it fails). -/
structure FileEntry where
  dirs : List String
  name : String
  content : Option (List Nat)
  deriving DecidableEq, Repr

/-- `str(filepath.relative_to(WATCH_DIR))`: the relative path used as the
snapshot key. -/
def relPath (f : FileEntry) : String :=
  String.intercalate "/" (f.dirs ++ [f.name])

/-- The static configuration: `WATCH_EXTENSIONS` and `IGNORE_FILES`. -/
structure WatchSet where
  exts : List String
  ignore : List String
  deriving DecidableEq, Repr

/-- The script's fixed configuration values. -/
def defaultWatchSet : WatchSet :=
  { exts := [".js", ".html", ".css", ".json"]
  , ignore := ["dev-watch.py", "create-icons.py"] }

/-- A snapshot: the Python dict from relative path to optional fingerprint,
as an association list in insertion order. -/
abbrev Snapshot := List (String × Option String)

/-- Python `p in d` on a dict: membership of `p` among the keys. -/
def containsKey (m : Snapshot) (p : String) : Bool :=
  match m with
  | [] => false
  | e :: rest => if e.1 = p then true else containsKey rest p

/-- Python `d[p]` (guarded by `p in d`): the value stored at key `p`. -/
def lookupKey (m : Snapshot) (p : String) : Option (Option String) :=
  match m with
  | [] => none
  | e :: rest => if e.1 = p then some e.2 else lookupKey rest p

/-- Python `d[k] = v`: overwrite the entry in place when the key exists,
append it otherwise. -/
def dictInsert (m : Snapshot) (k : String) (v : Option String) : Snapshot :=
  match m with
  | [] => [(k, v)]
  | e :: rest => if e.1 = k then (k, v) :: rest else e :: dictInsert rest k v

/-- The key list of a snapshot, in iteration order. -/
def keys (m : Snapshot) : List String := m.map Prod.fst

/-- `get_file_hash`: the MD5 hex digest of the file's bytes, or `None`
when the read raises. In the embedding the possibility of a failing read
is the `content = none` case, so the function is total and never raises. -/
def get_file_hash (digest : List Nat → String) (f : FileEntry) : Option String :=
  match f.content with
  | some bs => some (digest bs)
  | none => none

/-- `fnmatch` of a pattern `*ext` against a filename: the name ends with
`ext` (the configured patterns contain no wildcard besides the leading
`*`, which may match the empty prefix). -/
def matchesPattern (name ext : String) : Bool :=
  ext.data.isSuffixOf name.data

/-- `WATCH_DIR.rglob(f'*{ext}')` keeps the files whose name matches the
pattern `*ext`. Enumeration order is the directory state's order. -/
def rglobMatches (D : List FileEntry) (ext : String) : List FileEntry :=
  D.filter (fun f => matchesPattern f.name ext)

/-- `get_all_watched_files`: for each watched extension, for each file
matching it, skip it when its name is ignored, otherwise store its hash
under its relative path. -/
def get_all_watched_files (digest : List Nat → String) (W : WatchSet)
    (D : List FileEntry) : Snapshot :=
  W.exts.foldl
    (fun files ext =>
      (rglobMatches D ext).foldl
        (fun files f =>
          if f.name ∈ W.ignore then files
          else dictInsert files (relPath f) (get_file_hash digest f))
        files)
    []

/-- A file the scan picks up: some watched extension matches its name and
its name is not ignored. -/
def watched (W : WatchSet) (f : FileEntry) : Prop :=
  (∃ e ∈ W.exts, matchesPattern f.name e = true) ∧ f.name ∉ W.ignore

instance (W : WatchSet) (f : FileEntry) : Decidable (watched W f) := by
  unfold watched; infer_instance

/-- A value the snapshot may store at key `q`: the hash of some watched
file of the directory state whose relative path is `q`. -/
def snapVal (digest : List Nat → String) (W : WatchSet) (D : List FileEntry)
    (q : String) (w : Option String) : Prop :=
  ∃ f ∈ D, relPath f = q ∧ watched W f ∧ w = get_file_hash digest f

/-- The modified test of the watch loop:
`filepath not in file_hashes or file_hashes[filepath] != hash_val`. -/
def modifiedCheck (file_hashes : Snapshot) (p : String) (h : Option String) : Bool :=
  match lookupKey file_hashes p with
  | none => true
  | some h2 => decide (h2 ≠ h)

/-- The diff of the watch loop: first pass over `current_hashes` appending
each modified path, second pass over `file_hashes` appending
`f"{filepath} (deleted)"` for each vanished path. -/
def changed_files (file_hashes current_hashes : Snapshot) : List String :=
  let afterModified := current_hashes.foldl
    (fun acc e => if modifiedCheck file_hashes e.1 e.2 then acc ++ [e.1] else acc)
    []
  file_hashes.foldl
    (fun acc e => if containsKey current_hashes e.1 then acc
                  else acc ++ [e.1 ++ " (deleted)"])
    afterModified

/-- The paths reported as modified, in the iteration order of
`current_hashes`. -/
def modifiedPaths (file_hashes current_hashes : Snapshot) : List String :=
  (current_hashes.filter (fun e => modifiedCheck file_hashes e.1 e.2)).map Prod.fst

/-- The paths reported as deleted, in the iteration order of
`file_hashes`. -/
def deletedPaths (file_hashes current_hashes : Snapshot) : List String :=
  (file_hashes.filter (fun e => !containsKey current_hashes e.1)).map Prod.fst

/-- Python's `c * 50`: a separator line of fifty copies of a character. -/
def sepLine (c : Char) : String := String.mk (List.replicate 50 c)

/-- The lines printed by `print_reload_instructions`: the static
instructional message emitted after every detected change. -/
def print_reload_instructions : List String :=
  [ ""
  , sepLine '='
  , "🔄 FILES CHANGED - RELOAD NEEDED"
  , sepLine '='
  , ""
  , "📌 To reload your extension:"
  , "   1. Open chrome://extensions"
  , "   2. Click the reload icon (🔄) for 'Klue'"
  , ""
  , "💡 TIP: Keep the extensions page open in a pinned tab"
  , "   for quick reloading during development"
  , ""
  , sepLine '-'
  , "" ]

/-- One poll cycle of the watch loop: rebuild the snapshot, diff it
against the stored one; when anything changed print the report followed by
the instructions and commit the new snapshot, otherwise print nothing and
keep the old snapshot. Returns the printed lines and the snapshot stored
for the next cycle. -/
def pollCycle (digest : List Nat → String) (W : WatchSet)
    (file_hashes : Snapshot) (D : List FileEntry) : List String × Snapshot :=
  let current_hashes := get_all_watched_files digest W D
  let changed := changed_files file_hashes current_hashes
  if changed = [] then ([], file_hashes)
  else
    (["🔔 Detected changes in:"]
       ++ changed.map (fun p => "   • " ++ p)
       ++ print_reload_instructions,
     current_hashes)

/-- An external event reaching the loop: either the sleep elapses and a
poll cycle runs against the directory state `D`, or an interrupt signal
(`KeyboardInterrupt`) arrives. -/
inductive Event where
  | tick (D : List FileEntry)
  | interrupt
  deriving DecidableEq, Repr

/-- The observable outcome of running the loop on a finite event prefix:
either it is still looping with its stored snapshot and the output so far,
or it has exited the process with its output and an exit code. -/
inductive LoopResult where
  | running (snap : Snapshot) (out : List String)
  | exited (out : List String) (code : Nat)
  deriving DecidableEq, Repr

/-- The farewell line printed by the `KeyboardInterrupt` handler. -/
def farewellLine : String := "👋 Hot reload watcher stopped"

/-- The watch loop `while True: sleep; scan; diff; report` driven by an
event stream: a tick runs `pollCycle`, an interrupt prints the farewell
and exits with code 0, and an exhausted stream leaves the loop running. -/
def run_watch (digest : List Nat → String) (W : WatchSet)
    (file_hashes : Snapshot) (out : List String) : List Event → LoopResult
  | [] => .running file_hashes out
  | .interrupt :: _ => .exited (out ++ [farewellLine]) 0
  | .tick D :: rest =>
      let r := pollCycle digest W file_hashes D
      run_watch digest W r.2 (out ++ r.1) rest

/-! ### Association-list (Python dict) lemmas -/

lemma containsKey_iff (m : Snapshot) (p : String) :
    containsKey m p = true ↔ p ∈ keys m := by
  induction m with
  | nil => simp [containsKey, keys]
  | cons e rest ih =>
      by_cases h : e.1 = p
      · simp [containsKey, keys, h]
      · simp only [containsKey, keys, List.map_cons, List.mem_cons, if_neg h, ih]
        constructor
        · exact Or.inr
        · rintro (hq | hq)
          · exact absurd hq.symm h
          · exact hq

lemma lookupKey_eq_none_iff (m : Snapshot) (p : String) :
    lookupKey m p = none ↔ p ∉ keys m := by
  induction m with
  | nil => simp [lookupKey, keys]
  | cons e rest ih =>
      by_cases h : e.1 = p
      · simp [lookupKey, keys, h]
      · simp only [lookupKey, keys, List.map_cons, List.mem_cons, if_neg h, ih]
        constructor
        · rintro hn (hq | hq)
          · exact h hq.symm
          · exact hn hq
        · intro hn hq
          exact hn (Or.inr hq)

lemma mem_keys_iff_lookup (m : Snapshot) (p : String) :
    p ∈ keys m ↔ ∃ v, lookupKey m p = some v := by
  constructor
  · intro hp
    cases hv : lookupKey m p with
    | none => exact absurd ((lookupKey_eq_none_iff m p).mp hv) (not_not_intro hp)
    | some v => exact ⟨v, rfl⟩
  · rintro ⟨v, hv⟩
    by_contra hp
    rw [(lookupKey_eq_none_iff m p).mpr hp] at hv
    exact Option.noConfusion hv

lemma lookupKey_mem (m : Snapshot) (p : String) (v : Option String)
    (h : lookupKey m p = some v) : (p, v) ∈ m := by
  induction m with
  | nil => simp [lookupKey] at h
  | cons e rest ih =>
      by_cases he : e.1 = p
      · rw [lookupKey, if_pos he] at h
        obtain rfl : e.2 = v := Option.some.inj h
        have hpe : (p, e.2) = e := by
          obtain ⟨k, w⟩ := e
          simp only at he
          rw [he]
        rw [hpe]
        exact List.mem_cons_self _ _
      · rw [lookupKey, if_neg he] at h
        exact List.mem_cons_of_mem _ (ih h)

lemma lookupKey_of_mem_nodup (m : Snapshot) (e : String × Option String)
    (hm : e ∈ m) (hnd : (keys m).Nodup) : lookupKey m e.1 = some e.2 := by
  induction m with
  | nil => cases hm
  | cons a rest ih =>
      rw [keys, List.map_cons, List.nodup_cons] at hnd
      rcases List.mem_cons.mp hm with rfl | hm
      · rw [lookupKey, if_pos rfl]
      · have hne : a.1 ≠ e.1 := by
          intro hEq
          exact hnd.1 (hEq ▸ List.mem_map_of_mem Prod.fst hm)
        rw [lookupKey, if_neg hne]
        exact ih hm hnd.2

lemma mem_keys_dictInsert (m : Snapshot) (k : String) (v : Option String)
    (q : String) : q ∈ keys (dictInsert m k v) ↔ q ∈ keys m ∨ q = k := by
  induction m with
  | nil => simp [dictInsert, keys, eq_comm]
  | cons e rest ih =>
      by_cases he : e.1 = k
      · subst he
        rw [dictInsert, if_pos rfl]
        simp only [keys, List.map_cons, List.mem_cons]
        tauto
      · simp only [dictInsert, if_neg he, keys, List.map_cons, List.mem_cons]
        simp only [keys] at ih
        rw [ih]
        tauto

lemma lookupKey_dictInsert_self (m : Snapshot) (k : String) (v : Option String) :
    lookupKey (dictInsert m k v) k = some v := by
  induction m with
  | nil => simp [dictInsert, lookupKey]
  | cons e rest ih =>
      by_cases he : e.1 = k
      · rw [dictInsert, if_pos he, lookupKey, if_pos rfl]
      · rw [dictInsert, if_neg he, lookupKey, if_neg he]
        exact ih

lemma lookupKey_dictInsert_ne (m : Snapshot) (k : String) (v : Option String)
    (q : String) (h : q ≠ k) : lookupKey (dictInsert m k v) q = lookupKey m q := by
  have hk : ¬ k = q := fun hEq => h hEq.symm
  induction m with
  | nil => simp [dictInsert, lookupKey, hk]
  | cons e rest ih =>
      by_cases he : e.1 = k
      · subst he
        simp [dictInsert, lookupKey, hk]
      · simp only [dictInsert, if_neg he, lookupKey]
        by_cases heq : e.1 = q
        · simp [heq]
        · simp [heq, ih]

/-! ### Snapshot construction lemmas -/

lemma inner_fold_keys (digest : List Nat → String) (W : WatchSet)
    (L : List FileEntry) : ∀ (acc : Snapshot) (q : String),
    q ∈ keys (L.foldl
      (fun files f =>
        if f.name ∈ W.ignore then files
        else dictInsert files (relPath f) (get_file_hash digest f)) acc) ↔
    q ∈ keys acc ∨ ∃ f ∈ L, f.name ∉ W.ignore ∧ relPath f = q := by
  induction L with
  | nil => simp
  | cons f L ih =>
      intro acc q
      simp only [List.foldl_cons]
      by_cases hig : f.name ∈ W.ignore
      · rw [if_pos hig, ih]
        simp only [List.mem_cons]
        constructor
        · rintro (h | ⟨g, hg, hgi, hgp⟩)
          · exact Or.inl h
          · exact Or.inr ⟨g, Or.inr hg, hgi, hgp⟩
        · rintro (h | ⟨g, rfl | hg, hgi, hgp⟩)
          · exact Or.inl h
          · exact absurd hig hgi
          · exact Or.inr ⟨g, hg, hgi, hgp⟩
      · rw [if_neg hig, ih]
        rw [mem_keys_dictInsert]
        simp only [List.mem_cons]
        constructor
        · rintro ((h | h) | ⟨g, hg, hgi, hgp⟩)
          · exact Or.inl h
          · exact Or.inr ⟨f, Or.inl rfl, hig, h.symm⟩
          · exact Or.inr ⟨g, Or.inr hg, hgi, hgp⟩
        · rintro (h | ⟨g, rfl | hg, hgi, hgp⟩)
          · exact Or.inl (Or.inl h)
          · exact Or.inl (Or.inr hgp.symm)
          · exact Or.inr ⟨g, hg, hgi, hgp⟩

lemma outer_fold_keys (digest : List Nat → String) (W : WatchSet)
    (D : List FileEntry) (exts : List String) : ∀ (acc : Snapshot) (q : String),
    q ∈ keys (exts.foldl
      (fun files ext =>
        (rglobMatches D ext).foldl
          (fun files f =>
            if f.name ∈ W.ignore then files
            else dictInsert files (relPath f) (get_file_hash digest f))
          files) acc) ↔
    q ∈ keys acc ∨ ∃ e ∈ exts, ∃ f ∈ rglobMatches D e,
      f.name ∉ W.ignore ∧ relPath f = q := by
  induction exts with
  | nil => simp
  | cons ext exts ih =>
      intro acc q
      simp only [List.foldl_cons]
      rw [ih, inner_fold_keys]
      simp only [List.mem_cons]
      constructor
      · rintro ((h | ⟨g, hg, hgi, hgp⟩) | ⟨e, he, g, hg, hgi, hgp⟩)
        · exact Or.inl h
        · exact Or.inr ⟨ext, Or.inl rfl, g, hg, hgi, hgp⟩
        · exact Or.inr ⟨e, Or.inr he, g, hg, hgi, hgp⟩
      · rintro (h | ⟨e, rfl | he, g, hg, hgi, hgp⟩)
        · exact Or.inl (Or.inl h)
        · exact Or.inl (Or.inr ⟨g, hg, hgi, hgp⟩)
        · exact Or.inr ⟨e, he, g, hg, hgi, hgp⟩

/-- Key-membership characterization of the snapshot: the keys are exactly
the relative paths of the watched files of the directory state. -/
lemma mem_keys_snapshot (digest : List Nat → String) (W : WatchSet)
    (D : List FileEntry) (q : String) :
    q ∈ keys (get_all_watched_files digest W D) ↔
    ∃ f ∈ D, relPath f = q ∧ watched W f := by
  rw [get_all_watched_files, outer_fold_keys]
  simp only [keys, List.map_nil, List.not_mem_nil, false_or, rglobMatches,
    List.mem_filter, watched]
  constructor
  · rintro ⟨e, he, g, ⟨hgD, hge⟩, hgi, hgp⟩
    exact ⟨g, hgD, hgp, ⟨e, he, by simpa using hge⟩, hgi⟩
  · rintro ⟨g, hgD, hgp, ⟨e, he, hge⟩, hgi⟩
    exact ⟨e, he, g, ⟨hgD, by simpa using hge⟩, hgi, hgp⟩

lemma inner_fold_lookup (digest : List Nat → String) (W : WatchSet)
    (D : List FileEntry) (ext : String) (hext : ext ∈ W.exts) :
    ∀ (L : List FileEntry), (∀ f ∈ L, f ∈ D ∧ matchesPattern f.name ext = true) →
    ∀ (acc : Snapshot), (∀ q w, lookupKey acc q = some w → snapVal digest W D q w) →
    ∀ q w, lookupKey (L.foldl
      (fun files f =>
        if f.name ∈ W.ignore then files
        else dictInsert files (relPath f) (get_file_hash digest f)) acc) q = some w →
    snapVal digest W D q w := by
  intro L
  induction L with
  | nil => intro _ acc hacc q w hq; exact hacc q w hq
  | cons f L ih =>
      intro hL acc hacc q w
      simp only [List.foldl_cons]
      by_cases hig : f.name ∈ W.ignore
      · rw [if_pos hig]
        exact ih (fun g hg => hL g (List.mem_cons_of_mem _ hg)) acc hacc q w
      · rw [if_neg hig]
        refine ih (fun g hg => hL g (List.mem_cons_of_mem _ hg)) _ ?_ q w
        intro q' w' hq'
        by_cases hq1 : q' = relPath f
        · subst hq1
          rw [lookupKey_dictInsert_self] at hq'
          obtain rfl : get_file_hash digest f = w' := Option.some.inj hq'
          exact ⟨f, (hL f (List.mem_cons_self _ _)).1, rfl,
            ⟨⟨ext, hext, (hL f (List.mem_cons_self _ _)).2⟩, hig⟩, rfl⟩
        · rw [lookupKey_dictInsert_ne _ _ _ _ hq1] at hq'
          exact hacc q' w' hq'

lemma outer_fold_lookup (digest : List Nat → String) (W : WatchSet)
    (D : List FileEntry) :
    ∀ (exts : List String), (∀ e ∈ exts, e ∈ W.exts) →
    ∀ (acc : Snapshot), (∀ q w, lookupKey acc q = some w → snapVal digest W D q w) →
    ∀ q w, lookupKey (exts.foldl
      (fun files ext =>
        (rglobMatches D ext).foldl
          (fun files f =>
            if f.name ∈ W.ignore then files
            else dictInsert files (relPath f) (get_file_hash digest f))
          files) acc) q = some w →
    snapVal digest W D q w := by
  intro exts
  induction exts with
  | nil => intro _ acc hacc q w hq; exact hacc q w hq
  | cons ext exts ih =>
      intro hexts acc hacc q w
      simp only [List.foldl_cons]
      refine ih (fun e he => hexts e (List.mem_cons_of_mem _ he)) _ ?_ q w
      intro q' w' hq'
      refine inner_fold_lookup digest W D ext (hexts ext (List.mem_cons_self _ _))
        (rglobMatches D ext) ?_ acc hacc q' w' hq'
      intro g hg
      rw [rglobMatches, List.mem_filter] at hg
      exact hg

/-- Every value the snapshot stores is the hash of a watched file whose
relative path is the key. -/
lemma snapshot_lookup_val (digest : List Nat → String) (W : WatchSet)
    (D : List FileEntry) (q : String) (w : Option String)
    (hq : lookupKey (get_all_watched_files digest W D) q = some w) :
    snapVal digest W D q w := by
  rw [get_all_watched_files] at hq
  refine outer_fold_lookup digest W D W.exts (fun e he => he) [] ?_ q w hq
  intro q' w' hq'
  simp [lookupKey] at hq'

/-- Under distinct relative paths, the snapshot stores exactly the hash of
each watched file at its relative path. -/
lemma snapshot_lookup_watched (digest : List Nat → String) (W : WatchSet)
    (D : List FileEntry) (f : FileEntry) (hnd : (D.map relPath).Nodup)
    (hf : f ∈ D) (hw : watched W f) :
    lookupKey (get_all_watched_files digest W D) (relPath f) =
      some (get_file_hash digest f) := by
  have hk : relPath f ∈ keys (get_all_watched_files digest W D) :=
    (mem_keys_snapshot digest W D (relPath f)).mpr ⟨f, hf, rfl, hw⟩
  obtain ⟨v, hv⟩ := (mem_keys_iff_lookup _ _).mp hk
  obtain ⟨g, hg, hgp, _, rfl⟩ := snapshot_lookup_val digest W D _ v hv
  have hgf : g = f := List.inj_on_of_nodup_map hnd hg hf hgp
  rw [hgf] at hv
  exact hv

/-! ### Diff lemmas -/

lemma foldl_if_append {α β : Type} (f : α → Bool) (g : α → β) :
    ∀ (l : List α) (acc : List β),
    l.foldl (fun acc x => if f x then acc ++ [g x] else acc) acc =
      acc ++ (l.filter f).map g := by
  intro l
  induction l with
  | nil => simp
  | cons x l ih =>
      intro acc
      simp only [List.foldl_cons]
      by_cases hx : f x
      · rw [if_pos hx, ih]
        simp [List.filter_cons, hx, List.append_assoc]
      · rw [if_neg hx, ih]
        simp [List.filter_cons, hx]

/-- The diff list is the modified paths (in current-snapshot order)
followed by the deleted paths (in previous-snapshot order) annotated
with " (deleted)". -/
lemma changed_files_decomp (file_hashes current_hashes : Snapshot) :
    changed_files file_hashes current_hashes =
      modifiedPaths file_hashes current_hashes ++
        (deletedPaths file_hashes current_hashes).map (fun p => p ++ " (deleted)") := by
  rw [changed_files]
  have hstep :
      (fun (acc : List String) (e : String × Option String) =>
        if containsKey current_hashes e.1 then acc
        else acc ++ [e.1 ++ " (deleted)"]) =
      (fun (acc : List String) (e : String × Option String) =>
        if !containsKey current_hashes e.1 then acc ++ [e.1 ++ " (deleted)"]
        else acc) := by
    funext acc e
    cases h : containsKey current_hashes e.1 <;> simp [h]
  rw [hstep, foldl_if_append, foldl_if_append]
  simp only [List.nil_append, modifiedPaths, deletedPaths, List.map_map]
  rfl

lemma modifiedCheck_iff (file_hashes : Snapshot) (p : String) (h : Option String) :
    modifiedCheck file_hashes p h = true ↔ lookupKey file_hashes p ≠ some h := by
  rw [modifiedCheck]
  cases hv : lookupKey file_hashes p with
  | none => simp
  | some h2 => simp

lemma mem_modifiedPaths (file_hashes current_hashes : Snapshot) (p : String) :
    p ∈ modifiedPaths file_hashes current_hashes ↔
      ∃ h, (p, h) ∈ current_hashes ∧ lookupKey file_hashes p ≠ some h := by
  rw [modifiedPaths]
  simp only [List.mem_map, List.mem_filter]
  constructor
  · rintro ⟨e, ⟨he, hc⟩, rfl⟩
    exact ⟨e.2, he, (modifiedCheck_iff _ _ _).mp hc⟩
  · rintro ⟨h, hmem, hne⟩
    exact ⟨(p, h), ⟨hmem, (modifiedCheck_iff _ _ _).mpr hne⟩, rfl⟩

lemma mem_deletedPaths (file_hashes current_hashes : Snapshot) (p : String) :
    p ∈ deletedPaths file_hashes current_hashes ↔
      p ∈ keys file_hashes ∧ p ∉ keys current_hashes := by
  rw [deletedPaths]
  simp only [List.mem_map, List.mem_filter, Bool.not_eq_true']
  constructor
  · rintro ⟨e, ⟨he, hc⟩, rfl⟩
    refine ⟨List.mem_map_of_mem Prod.fst he, ?_⟩
    intro hk
    rw [← containsKey_iff] at hk
    rw [hc] at hk
    exact Bool.false_ne_true hk
  · rintro ⟨hp, hnp⟩
    obtain ⟨e, he, rfl⟩ := List.mem_map.mp hp
    refine ⟨e, ⟨he, ?_⟩, rfl⟩
    cases hc : containsKey current_hashes e.1 with
    | false => rfl
    | true => exact absurd ((containsKey_iff _ _).mp hc) hnp

/-- With a duplicate-free current snapshot (always true of a Python dict),
a path of `current_hashes` is reported modified exactly when its stored
value changed. -/
lemma mem_modifiedPaths_nodup (file_hashes current_hashes : Snapshot)
    (p : String) (hnd : (keys current_hashes).Nodup)
    (hp : p ∈ keys current_hashes) :
    p ∈ modifiedPaths file_hashes current_hashes ↔
      lookupKey file_hashes p ≠ lookupKey current_hashes p := by
  obtain ⟨v, hv⟩ := (mem_keys_iff_lookup _ _).mp hp
  rw [hv, mem_modifiedPaths]
  constructor
  · rintro ⟨h, hmem, hne⟩
    have : lookupKey current_hashes p = some h :=
      lookupKey_of_mem_nodup _ (p, h) hmem hnd
    rw [hv] at this
    obtain rfl : v = h := Option.some.inj this
    exact hne
  · intro hne
    exact ⟨v, lookupKey_mem _ _ _ hv, hne⟩

/-- An empty diff splits into empty modified and deleted parts. -/
lemma changed_files_nil (file_hashes current_hashes : Snapshot)
    (h : changed_files file_hashes current_hashes = []) :
    modifiedPaths file_hashes current_hashes = [] ∧
    deletedPaths file_hashes current_hashes = [] := by
  rw [changed_files_decomp] at h
  obtain ⟨h1, h2⟩ := List.append_eq_nil.mp h
  exact ⟨h1, List.map_eq_nil_iff.mp h2⟩

/-- When a poll cycle reports nothing, the two snapshots agree at every
key. -/
lemma quiescent_lookup_eq (file_hashes current_hashes : Snapshot)
    (h : changed_files file_hashes current_hashes = []) (p : String) :
    lookupKey file_hashes p = lookupKey current_hashes p := by
  obtain ⟨hm, hd⟩ := changed_files_nil _ _ h
  cases hc : lookupKey current_hashes p with
  | some v =>
      by_contra hne
      have hp : p ∈ modifiedPaths file_hashes current_hashes :=
        (mem_modifiedPaths _ _ _).mpr ⟨v, lookupKey_mem _ _ _ hc, hne⟩
      rw [hm] at hp
      exact List.not_mem_nil _ hp
  | none =>
      rw [lookupKey_eq_none_iff]
      intro hkp
      have hp : p ∈ deletedPaths file_hashes current_hashes :=
        (mem_deletedPaths _ _ _).mpr
          ⟨hkp, (lookupKey_eq_none_iff _ _).mp hc⟩
      rw [hd] at hp
      exact List.not_mem_nil _ hp

/-- Diffing a duplicate-free snapshot against itself reports nothing. -/
lemma changed_files_self (S : Snapshot) (hnd : (keys S).Nodup) :
    changed_files S S = [] := by
  rw [changed_files_decomp]
  have hm : modifiedPaths S S = [] := by
    rw [modifiedPaths, List.filter_eq_nil_iff.mpr, List.map_nil]
    intro e he
    have hv : lookupKey S e.1 = some e.2 := lookupKey_of_mem_nodup S e he hnd
    show ¬ modifiedCheck S e.1 e.2 = true
    simp [modifiedCheck, hv]
  have hd : deletedPaths S S = [] := by
    rw [deletedPaths, List.filter_eq_nil_iff.mpr, List.map_nil]
    intro e he
    have hc : containsKey S e.1 = true :=
      (containsKey_iff S e.1).mpr (List.mem_map_of_mem Prod.fst he)
    show ¬ (!containsKey S e.1) = true
    simp [hc]
  rw [hm, hd, List.map_nil, List.append_nil]

/-! ### Claim theorems -/

/-- Claim C1: for every WatchSet and every directory state, the snapshot
built by `get_all_watched_files` has as keys exactly the relative paths of
the files whose name matches a watched extension and is not in the ignore
list — no matching file is missing and nothing else appears. -/
theorem buildSnapshot_keys_exact (digest : List Nat → String) (W : WatchSet)
    (D : List FileEntry) (p : String) :
    p ∈ keys (get_all_watched_files digest W D) ↔
      ∃ f ∈ D, relPath f = p ∧ watched W f :=
  mem_keys_snapshot digest W D p

/-- Claim C2: for a path present in the current snapshot, the diff reports
it as modified exactly when it is absent from the previous snapshot or its
stored fingerprint differs; in particular a newly added path is reported
as modified, identically to a changed one. -/
theorem diff_modified_iff (file_hashes current_hashes : Snapshot) (p : String)
    (hnd : (keys current_hashes).Nodup) (hp : p ∈ keys current_hashes) :
    (p ∈ modifiedPaths file_hashes current_hashes ↔
      p ∉ keys file_hashes ∨
        lookupKey file_hashes p ≠ lookupKey current_hashes p) ∧
    (p ∉ keys file_hashes → p ∈ modifiedPaths file_hashes current_hashes) := by
  have hmain := mem_modifiedPaths_nodup file_hashes current_hashes p hnd hp
  obtain ⟨v, hv⟩ := (mem_keys_iff_lookup _ _).mp hp
  have habs : p ∉ keys file_hashes →
      lookupKey file_hashes p ≠ lookupKey current_hashes p := by
    intro hnk
    rw [(lookupKey_eq_none_iff _ _).mpr hnk, hv]
    exact fun h => Option.noConfusion h
  constructor
  · rw [hmain]
    constructor
    · exact Or.inr
    · rintro (h | h)
      · exact habs h
      · exact h
  · intro hnk
    exact hmain.mpr (habs hnk)

/-- Witness for C2: a file present only in the current snapshot is
reported as modified. -/
theorem diff_modified_iff_concrete :
    "a.js" ∈ modifiedPaths ([] : Snapshot) [("a.js", some "x")] :=
  (diff_modified_iff [] [("a.js", some "x")] "a.js" (by decide)
    (by decide)).2 (by decide)

/-- Claim C3: the diff reports as deleted exactly the paths present in the
previous snapshot and absent from the current one, and the emitted list is
the modified paths (in current-snapshot order) followed by the deleted
paths (in previous-snapshot order, suffixed " (deleted)"). -/
theorem diff_deleted_and_order (file_hashes current_hashes : Snapshot) :
    (∀ p, p ∈ deletedPaths file_hashes current_hashes ↔
        p ∈ keys file_hashes ∧ p ∉ keys current_hashes) ∧
    changed_files file_hashes current_hashes =
      modifiedPaths file_hashes current_hashes ++
        (deletedPaths file_hashes current_hashes).map
          (fun p => p ++ " (deleted)") :=
  ⟨fun p => mem_deletedPaths file_hashes current_hashes p,
   changed_files_decomp file_hashes current_hashes⟩

/-- Claim C4: a watched file always reaches the snapshot, an unreadable
file's fingerprint is `none` rather than an error, and (paths being
distinct, as on a real filesystem) that `none` is what the snapshot
stores — so a single unreadable file never aborts the scan. -/
theorem buildSnapshot_unreadable_absent (digest : List Nat → String)
    (W : WatchSet) (D : List FileEntry) (f : FileEntry)
    (hf : f ∈ D) (hw : watched W f) :
    relPath f ∈ keys (get_all_watched_files digest W D) ∧
    (f.content = none → get_file_hash digest f = none) ∧
    ((D.map relPath).Nodup → f.content = none →
      lookupKey (get_all_watched_files digest W D) (relPath f) = some none) := by
  refine ⟨(mem_keys_snapshot digest W D (relPath f)).mpr ⟨f, hf, rfl, hw⟩, ?_, ?_⟩
  · intro hc
    simp [get_file_hash, hc]
  · intro hnd hc
    rw [snapshot_lookup_watched digest W D f hnd hf hw]
    simp [get_file_hash, hc]

/-- Witness for C4: an unreadable watched file is recorded with an absent
fingerprint. -/
theorem buildSnapshot_unreadable_absent_concrete :
    lookupKey (get_all_watched_files (fun _ => "d") defaultWatchSet
        [⟨[], "a.js", none⟩]) (relPath ⟨[], "a.js", none⟩) = some none :=
  (buildSnapshot_unreadable_absent (fun _ => "d") defaultWatchSet
    [⟨[], "a.js", none⟩] ⟨[], "a.js", none⟩ (by decide) (by decide)).2.2
    (by decide) rfl

/-- Claim C5: for a path present in both snapshots, an absent fingerprint
on both sides is treated as unchanged (no modified and no deleted record),
while a fingerprint absent on exactly one side is reported as modified. -/
theorem diff_absent_fingerprints (file_hashes current_hashes : Snapshot)
    (p : String) (hnd : (keys current_hashes).Nodup)
    (_hp : p ∈ keys file_hashes) (hc : p ∈ keys current_hashes) :
    (lookupKey file_hashes p = some none →
      lookupKey current_hashes p = some none →
      p ∉ modifiedPaths file_hashes current_hashes ∧
        p ∉ deletedPaths file_hashes current_hashes) ∧
    (∀ h : String,
      (lookupKey file_hashes p = some none ∧
          lookupKey current_hashes p = some (some h)) ∨
        (lookupKey file_hashes p = some (some h) ∧
          lookupKey current_hashes p = some none) →
      p ∈ modifiedPaths file_hashes current_hashes) := by
  have hmain := mem_modifiedPaths_nodup file_hashes current_hashes p hnd hc
  constructor
  · intro h1 h2
    constructor
    · rw [hmain, h1, h2]
      exact not_not_intro rfl
    · rw [mem_deletedPaths]
      rintro ⟨-, hnc⟩
      exact hnc hc
  · rintro h (⟨h1, h2⟩ | ⟨h1, h2⟩) <;> rw [hmain, h1, h2] <;>
      exact fun hEq => Option.noConfusion (Option.some.inj hEq)

/-- Witness for C5: a path unreadable on both sides yields no record. -/
theorem diff_absent_fingerprints_concrete :
    "a.js" ∉ modifiedPaths [("a.js", (none : Option String))] [("a.js", none)] ∧
    "a.js" ∉ deletedPaths [("a.js", (none : Option String))] [("a.js", none)] :=
  (diff_absent_fingerprints [("a.js", none)] [("a.js", none)] "a.js"
    (by decide) (by decide) (by decide)).1 rfl rfl

/-- Claim C6: in a poll cycle, a non-empty diff makes the loop print the
report (the changed paths under a header, then the static instructions)
and commit the current snapshot, while an empty diff prints nothing and
keeps the previous snapshot. -/
theorem pollCycle_report_and_commit (digest : List Nat → String)
    (W : WatchSet) (file_hashes : Snapshot) (D : List FileEntry) :
    (changed_files file_hashes (get_all_watched_files digest W D) = [] →
      pollCycle digest W file_hashes D = ([], file_hashes)) ∧
    (changed_files file_hashes (get_all_watched_files digest W D) ≠ [] →
      pollCycle digest W file_hashes D =
        (["🔔 Detected changes in:"] ++
          (changed_files file_hashes (get_all_watched_files digest W D)).map
            (fun p => "   • " ++ p) ++ print_reload_instructions,
         get_all_watched_files digest W D)) := by
  constructor
  · intro h
    simp [pollCycle, h]
  · intro h
    simp [pollCycle, h]

/-- Claim C7: diffing a snapshot (a Python dict, hence with distinct keys)
against itself yields an empty change list. -/
theorem diff_self_empty (S : Snapshot) (hnd : (keys S).Nodup) :
    changed_files S S = [] :=
  changed_files_self S hnd

/-- Witness for C7: a concrete snapshot diffed against itself. -/
theorem diff_self_empty_concrete :
    changed_files [("a.js", some "x"), ("b.css", none)]
      [("a.js", some "x"), ("b.css", none)] = [] :=
  diff_self_empty [("a.js", some "x"), ("b.css", none)] (by decide)

/-- Claim C8: building the snapshot twice over one unchanged directory
state yields identical snapshots (same keys, same stored fingerprint at
every key), the fingerprint being a deterministic function of the file's
byte content. -/
theorem buildSnapshot_idempotent (digest : List Nat → String) (W : WatchSet)
    (D1 D2 : List FileEntry) (h : D1 = D2) :
    keys (get_all_watched_files digest W D1) =
      keys (get_all_watched_files digest W D2) ∧
    (∀ p, lookupKey (get_all_watched_files digest W D1) p =
      lookupKey (get_all_watched_files digest W D2) p) ∧
    (∀ f g : FileEntry, f.content = g.content →
      get_file_hash digest f = get_file_hash digest g) := by
  subst h
  refine ⟨rfl, fun p => rfl, ?_⟩
  intro f g hfg
  simp only [get_file_hash, hfg]

/-- Witness for C8: two scans of one concrete directory state agree. -/
theorem buildSnapshot_idempotent_concrete :
    keys (get_all_watched_files (fun _ => "d") defaultWatchSet
        [⟨[], "a.js", some [120]⟩]) =
      keys (get_all_watched_files (fun _ => "d") defaultWatchSet
        [⟨[], "a.js", some [120]⟩]) :=
  (buildSnapshot_idempotent (fun _ => "d") defaultWatchSet
    [⟨[], "a.js", some [120]⟩] [⟨[], "a.js", some [120]⟩] rfl).1

/-- Claim C9: the watch loop never exits while no interrupt arrives, and
on the first interrupt it exits with the farewell line as its last output
and exit code 0. -/
theorem run_watch_exit_on_interrupt (digest : List Nat → String) (W : WatchSet) :
    (∀ (snap : Snapshot) (out : List String) (events : List Event),
      (∀ e ∈ events, e ≠ Event.interrupt) →
      ∃ s o, run_watch digest W snap out events = LoopResult.running s o) ∧
    (∀ (snap : Snapshot) (out : List String) (pre rest : List Event),
      Event.interrupt ∉ pre →
      ∃ o, run_watch digest W snap out (pre ++ Event.interrupt :: rest) =
        LoopResult.exited (o ++ [farewellLine]) 0) := by
  constructor
  · intro snap out events
    induction events generalizing snap out with
    | nil => exact fun _ => ⟨snap, out, rfl⟩
    | cons e rest ih =>
        intro h
        cases e with
        | interrupt => exact absurd rfl (h _ (List.mem_cons_self _ _))
        | tick D =>
            simp only [run_watch]
            exact ih _ _ (fun e he => h e (List.mem_cons_of_mem _ he))
  · intro snap out pre rest
    induction pre generalizing snap out with
    | nil => exact fun _ => ⟨out, rfl⟩
    | cons e pre ih =>
        intro h
        cases e with
        | interrupt => exact absurd (List.mem_cons_self _ _) h
        | tick D =>
            simp only [List.cons_append, run_watch]
            exact ih _ _ (fun hmem => h (List.mem_cons_of_mem _ hmem))

/-- Claim C10: an empty diff means the two snapshots agree at every key;
hence replacing the stored snapshot only on a non-empty diff leaves it
agreeing, key for key, with what replace-every-cycle would store. -/
theorem empty_diff_snapshots_agree :
    (∀ file_hashes current_hashes : Snapshot,
      changed_files file_hashes current_hashes = [] →
      ∀ p, lookupKey file_hashes p = lookupKey current_hashes p) ∧
    (∀ (digest : List Nat → String) (W : WatchSet) (file_hashes : Snapshot)
        (D : List FileEntry) (p : String),
      lookupKey (pollCycle digest W file_hashes D).2 p =
        lookupKey (get_all_watched_files digest W D) p) := by
  refine ⟨fun prev cur h p => quiescent_lookup_eq prev cur h p, ?_⟩
  intro digest W prev D p
  by_cases h : changed_files prev (get_all_watched_files digest W D) = []
  · have h2 : (pollCycle digest W prev D).2 = prev := by simp [pollCycle, h]
    rw [h2]
    exact quiescent_lookup_eq _ _ h p
  · have h2 : (pollCycle digest W prev D).2 = get_all_watched_files digest W D := by
      simp [pollCycle, h]
    rw [h2]

end DevWatch
